import Mathlib

/-!
Shallow embedding of the pure data-transformation core of
`src/islands/App.tsx` (the "Thank U DK Tracker"): episode filtering,
band counting, grouping, sorting and the derived statistics, together
with proofs of the behavioural properties stated for them.

Modelling conventions:
* JS strings are Lean `String`s; `String.prototype.includes` and
  `toLowerCase` are modelled on the underlying character lists
  (`Char.toLower` models the per-character lowercasing).
* A JS `Record<string, number>` (resp. `Record<string, Episode[]>`) is an
  insertion-ordered association list: JS objects enumerate their
  non-index string keys in insertion order, which is the order
  `Object.entries` produces.
* `Array.prototype.sort` is required to be stable by the language
  specification; it is modelled by a stable insertion sort driven by the
  same comparator.
* JS array elements coming from the parsed JSON dataset are pairwise
  distinct object references, so `episodes.indexOf(episode)` is the
  position of the element itself; it is modelled positionally.
* A division whose result is not a finite number (`0/0 = NaN`) is
  modelled as `none : Option ℚ`; property accesses on `undefined`
  (which throw a `TypeError`) are modelled as `none` as well.
-/

namespace ThankYouDK

/-- An episode record, as in the `Episode` interface of `src/islands/App.tsx`:
`{ id: string; title: string; published: string; band: string }`. -/
structure Episode where
  id : String
  title : String
  published : String
  band : String
deriving DecidableEq, Repr

/-- Test `leadMatch p l` holds when the character list `p` is an initial run of `l`. -/
def leadMatch : List Char → List Char → Bool
  | [], _ => true
  | _ :: _, [] => false
  | p :: ps, c :: cs => (p == c) && leadMatch ps cs

/-- Test `subMatch p l`: `p` occurs contiguously inside `l`; models the JS
`String.prototype.includes` test on character lists. -/
def subMatch (p : List Char) : List Char → Bool
  | [] => leadMatch p []
  | c :: cs => leadMatch p (c :: cs) || subMatch p cs

/-- Model `jsIncludes s pat` of the JS expression `s.includes(pat)`. -/
def jsIncludes (s pat : String) : Bool :=
  subMatch pat.toList s.toList

/-- Character list of `s.toLowerCase()`; `Char.toLower` models the JS
per-character lowercasing. -/
def lowerList (s : String) : List Char :=
  s.toList.map Char.toLower

/-- The filter predicate of `filteredEpisodes`:
`episode.band.toLowerCase().includes(searchTerm.toLowerCase())`. -/
def bandMatches (e : Episode) (term : String) : Bool :=
  subMatch (lowerList term) (lowerList e.band)

/-- The guard of `bandMentions` in `StatsPage`:
`episode.band && !episode.band.includes("<") && !episode.band.includes(">")`
(a JS string is truthy exactly when it is non-empty). -/
def mentionCond (s : String) : Bool :=
  (!(s == "")) && (!jsIncludes s "<") && (!jsIncludes s ">")

/-- The skip-guard of `bandCounts` (and of the grouping effect):
`!episode.band || episode.band === "" || episode.band.includes("<") || episode.band.includes(">")`. -/
def countSkipCond (s : String) : Bool :=
  (s == "") || (s == "") || jsIncludes s "<" || jsIncludes s ">"

/-- One step of `acc[k] = (acc[k] || 0) + 1` on the insertion-ordered
association-list model of a JS `Record<string, number>`: an existing key is
bumped in place, a new key is appended at the end. -/
def recIncr : List (String × Nat) → String → List (String × Nat)
  | [], k => [(k, 1)]
  | (k', c) :: rest, k =>
      if k' = k then (k', c + 1) :: rest else (k', c) :: recIncr rest k

/-- Function `bandCounts` from the `App` component: the reduce over `episodes` that
counts occurrences of each known band. -/
def bandCounts (episodes : List Episode) : List (String × Nat) :=
  episodes.foldl (fun acc e => if countSkipCond e.band then acc else recIncr acc e.band) []

/-- Generalisation of the `bandCounts` reduce over an arbitrary starting
accumulator, used to state its fold invariants. -/
def countsFold (m : List (String × Nat)) (l : List Episode) : List (String × Nat) :=
  l.foldl (fun acc e => if countSkipCond e.band then acc else recIncr acc e.band) m

/-- Function `bandMentions` from `StatsPage`: the reduce over `episodes` that counts
occurrences of each known band (same counting, positively phrased guard). -/
def bandMentions (episodes : List Episode) : List (String × Nat) :=
  episodes.foldl (fun acc e => if mentionCond e.band then recIncr acc e.band else acc) []

/-- Function `totalCountableEpisodes` from the `App` component: episodes whose band
contains neither of the sentinel characters; note an empty band passes. -/
def totalCountableEpisodes (episodes : List Episode) : Nat :=
  (episodes.filter (fun e => !(jsIncludes e.band "<" || jsIncludes e.band ">"))).length

/-- Value `knownBandsPercentage = (Object.keys(bandCounts).length / totalCountableEpisodes) * 100`.
When the denominator is `0` the JS division yields `NaN` (the numerator is
then also `0`), modelled as `none`. -/
def knownBandsPercentage (episodes : List Episode) : Option ℚ :=
  if totalCountableEpisodes episodes = 0 then none
  else some (((bandCounts episodes).length : ℚ) / (totalCountableEpisodes episodes : ℚ) * 100)

/-- Stable insertion of `x` into a list sorted by the JS comparator `cmp`:
`x` moves past exactly the elements that must strictly precede it. -/
def insertOrd (cmp : α → α → Int) (x : α) : List α → List α
  | [] => [x]
  | y :: ys => if cmp y x < 0 then y :: insertOrd cmp x ys else x :: y :: ys

/-- Model of `Array.prototype.sort(cmp)`: a stable sort by `cmp`
(ECMAScript requires sort stability). -/
def jsSort (cmp : α → α → Int) (l : List α) : List α :=
  l.foldr (insertOrd cmp) []

/-- The three values of the `sortBy` view state. -/
inductive SortMode
  | date
  | band
  | count
deriving DecidableEq, Repr

/-- Code-point lexicographic comparison of character lists. -/
def lexCmp : List Char → List Char → Ordering
  | [], [] => .eq
  | [], _ :: _ => .lt
  | _ :: _, [] => .gt
  | a :: as, b :: bs =>
      if a < b then .lt else if b < a then .gt else lexCmp as bs

/-- Code-point lexicographic comparison of strings. -/
def strCmp (a b : String) : Ordering :=
  lexCmp a.toList b.toList

/-- Model of `a.localeCompare(b)`: the default collation is modelled as
code-point lexicographic comparison, reported as a negative, zero or
positive integer. -/
def localeCompare (a b : String) : Int :=
  match strCmp a b with
  | .lt => -1
  | .eq => 0
  | .gt => 1

/-- The count comparator `(a, b) => b[1] - a[1]` used by both components. -/
def countCmp (a b : String × Nat) : Int :=
  (b.2 : Int) - (a.2 : Int)

/-- The comparator of `sortedBands` in the `App` component. -/
def sortedBandsCmp (mode : SortMode) (a b : String × Nat) : Int :=
  match mode with
  | .count => countCmp a b
  | .date => 0
  | .band => localeCompare a.1 b.1

/-- Function `sortedBands` from the `App` component:
`Object.entries(bandCounts).sort(...)`, driven by the current sort mode.
It is computed from the full episode list and never sees the search term. -/
def sortedBands (episodes : List Episode) (mode : SortMode) : List (String × Nat) :=
  jsSort (sortedBandsCmp mode) (bandCounts episodes)

/-- Function `sortedBands` from `StatsPage`:
`Object.entries(bandMentions).sort((a, b) => b[1] - a[1])`. -/
def statsSortedBands (episodes : List Episode) : List (String × Nat) :=
  jsSort countCmp (bandMentions episodes)

/-- Value `mostMentionedBand = sortedBands[0]` in `StatsPage` (`undefined` is `none`). -/
def mostMentionedBand (episodes : List Episode) : Option (String × Nat) :=
  (statsSortedBands episodes).head?

/-- Value `leastMentionedBand = sortedBands[sortedBands.length - 1]` in `StatsPage`. -/
def leastMentionedBand (episodes : List Episode) : Option (String × Nat) :=
  (statsSortedBands episodes).getLast?

/-- Value `newBandPercentage = (newBandCount / sortedBands.length) * 100` in
`StatsPage`; with no known bands the JS division is `0/0 = NaN`, modelled
as `none`. -/
def newBandPercentage (episodes : List Episode) : Option ℚ :=
  if (statsSortedBands episodes).length = 0 then none
  else some
    ((((statsSortedBands episodes).filter (fun p => p.2 == 1)).length : ℚ) /
      ((statsSortedBands episodes).length : ℚ) * 100)

/-- The superlative accesses of `StatsPage`'s JSX,
`stats.mostMentionedBand[0]`, `stats.mostMentionedBand[1]`,
`stats.leastMentionedBand[0]`, `stats.leastMentionedBand[1]`:
indexing into `undefined` throws a `TypeError`, modelled as `none`. -/
def renderStats (episodes : List Episode) : Option (String × Nat × String × Nat) :=
  match mostMentionedBand episodes, leastMentionedBand episodes with
  | some m, some l => some (m.1, m.2, l.1, l.2)
  | _, _ => none

/-- Pairing `idx n l` of every element of `l` with its position, starting at `n`:
the positional model of the distinct object references filling a JS array. -/
def idx (n : Nat) : List α → List (Nat × α)
  | [] => []
  | x :: xs => (n, x) :: idx (n + 1) xs

/-- Model of `episodes.findIndex(e => e.id === episode.id)`. -/
def firstIdxOfId (episodes : List Episode) (i : String) : Nat :=
  episodes.findIdx (fun e => e.id == i)

/-- Function `filteredEpisodes` from the `App` component: the case-insensitive
substring filter on the band, then the duplicate-id filter
`episodes.findIndex(e => e.id === episode.id) === episodes.indexOf(episode)`.
Since the array elements are distinct object references, `indexOf` returns
each element's own position, modelled through `idx 0`. -/
def filteredEpisodes (episodes : List Episode) (term : String) : List Episode :=
  ((((idx 0 episodes).filter (fun p => bandMatches p.2 term)).filter
      (fun p => firstIdxOfId episodes p.2.id == p.1)).map Prod.snd)

/-- One step of `groups[k] = groups[k] || []; groups[k].push(episode)` on the
insertion-ordered association-list model of a JS `Record<string, Episode[]>`. -/
def groupAdd (m : List (String × List Episode)) (k : String) (e : Episode) :
    List (String × List Episode) :=
  match m with
  | [] => [(k, [e])]
  | (k', es) :: rest =>
      if k' = k then (k', es ++ [e]) :: rest else (k', es) :: groupAdd rest k e

/-- Function `bandGroups` from the `App` component: the grouping effect that walks
`filteredEpisodes` and pushes each episode into the bucket named by its band,
or into the single `"Unknown"` bucket when the band is missing or sentinel. -/
def bandGroups (episodes : List Episode) (term : String) : List (String × List Episode) :=
  (filteredEpisodes episodes term).foldl
    (fun m e => if countSkipCond e.band then groupAdd m "Unknown" e else groupAdd m e.band e) []

/-- Generalisation of the grouping effect over an arbitrary starting
accumulator, used to state its fold invariants. -/
def groupsFold (m : List (String × List Episode)) (l : List Episode) :
    List (String × List Episode) :=
  l.foldl
    (fun m e => if countSkipCond e.band then groupAdd m "Unknown" e else groupAdd m e.band e) m

/-- The bucket key an episode is grouped under: its band when known,
otherwise `"Unknown"`. -/
def bucketKey (e : Episode) : String :=
  if countSkipCond e.band then "Unknown" else e.band

/-- Concatenation of all buckets of a grouping, in bucket order. -/
def groupsJoin (m : List (String × List Episode)) : List Episode :=
  (m.map Prod.snd).flatten

/-- The known-band occurrence list: the band of every episode whose band is
known (non-empty, no sentinel character), in episode order. -/
def knownBandsList (episodes : List Episode) : List String :=
  (episodes.filter (fun e => mentionCond e.band)).map Episode.band

/-- Number of distinct known bands occurring in the list. -/
def distinctKnownBands (episodes : List Episode) : Nat :=
  (knownBandsList episodes).dedup.length

/-- Modelled from the claim's words, for comparison with the code: the
known-bands percentage whose denominator counts only episodes with a known
(non-empty, sentinel-free) band, with the divide-by-zero guard. -/
def specKnownPercentage (episodes : List Episode) : Option ℚ :=
  if (episodes.filter (fun e => mentionCond e.band)).length = 0 then some 0
  else some ((distinctKnownBands episodes : ℚ) /
    ((episodes.filter (fun e => mentionCond e.band)).length : ℚ) * 100)

/-- First entry of maximal count, in insertion order. -/
def firstMaxEntry (l : List (String × Nat)) : Option (String × Nat) :=
  l.find? (fun p => l.all (fun q => q.2 ≤ p.2))

/-- First entry of minimal count, in insertion order (the tie-breaking the
spec ascribes to the least-mentioned superlative). -/
def firstMinEntry (l : List (String × Nat)) : Option (String × Nat) :=
  l.find? (fun p => l.all (fun q => p.2 ≤ q.2))

/-- Last entry of minimal count, in insertion order. -/
def lastMinEntry (l : List (String × Nat)) : Option (String × Nat) :=
  l.reverse.find? (fun p => l.all (fun q => p.2 ≤ q.2))

example : bandCounts [⟨"1", "t", "d", "Wilco"⟩, ⟨"2", "t", "d", "<unknown>"⟩,
    ⟨"3", "t", "d", "Wilco"⟩] = [("Wilco", 2)] := by decide

example : knownBandsPercentage [⟨"1", "t", "d", "Wilco"⟩, ⟨"2", "t", "d", "<unknown>"⟩,
    ⟨"3", "t", "d", "Wilco"⟩] = some 50 := by
  have h1 : bandCounts [⟨"1", "t", "d", "Wilco"⟩, ⟨"2", "t", "d", "<unknown>"⟩,
      ⟨"3", "t", "d", "Wilco"⟩] = [("Wilco", 2)] := by decide
  have h2 : totalCountableEpisodes [⟨"1", "t", "d", "Wilco"⟩, ⟨"2", "t", "d", "<unknown>"⟩,
      ⟨"3", "t", "d", "Wilco"⟩] = 2 := by decide
  rw [knownBandsPercentage, h1, h2]
  norm_num

example : knownBandsPercentage [] = none := by decide

example : filteredEpisodes [⟨"1", "t", "d", "ABBA"⟩, ⟨"2", "t", "d", "Run"⟩] "bb" =
    [⟨"1", "t", "d", "ABBA"⟩] := by decide

example : filteredEpisodes [⟨"1", "t", "d", "A"⟩, ⟨"1", "u", "d", "A"⟩] "" =
    [⟨"1", "t", "d", "A"⟩] := by decide

example : sortedBands [⟨"1", "t", "d", "B"⟩, ⟨"2", "t", "d", "A"⟩, ⟨"3", "t", "d", "B"⟩]
    SortMode.band = [("A", 1), ("B", 2)] := by decide

example : sortedBands [⟨"1", "t", "d", "B"⟩, ⟨"2", "t", "d", "A"⟩, ⟨"3", "t", "d", "B"⟩]
    SortMode.count = [("B", 2), ("A", 1)] := by decide

example : leastMentionedBand [⟨"1", "t", "d", "A"⟩, ⟨"2", "t", "d", "B"⟩] =
    some ("B", 1) := by decide

example : mostMentionedBand [⟨"1", "t", "d", "A"⟩, ⟨"2", "t", "d", "B"⟩] =
    some ("A", 1) := by decide

example : bandGroups [⟨"1", "t", "d", "A"⟩, ⟨"2", "t", "d", ""⟩] "" =
    [("A", [⟨"1", "t", "d", "A"⟩]), ("Unknown", [⟨"2", "t", "d", ""⟩])] := by decide

/-! ### Generic facts about the stable-sort model -/

theorem insertOrd_perm (cmp : α → α → Int) (x : α) :
    ∀ l : List α, List.Perm (insertOrd cmp x l) (x :: l)
  | [] => List.Perm.refl _
  | y :: ys => by
      rw [insertOrd]
      split
      · exact (((insertOrd_perm cmp x ys).cons y)).trans (List.Perm.swap x y ys)
      · exact List.Perm.refl _

theorem jsSort_perm (cmp : α → α → Int) :
    ∀ l : List α, List.Perm (jsSort cmp l) l
  | [] => List.Perm.refl _
  | x :: xs =>
      (insertOrd_perm cmp x (jsSort cmp xs)).trans ((jsSort_perm cmp xs).cons x)

theorem mem_insertOrd (cmp : α → α → Int) (x : α) (l : List α) (a : α) :
    a ∈ insertOrd cmp x l ↔ a = x ∨ a ∈ l := by
  rw [(insertOrd_perm cmp x l).mem_iff, List.mem_cons]

theorem pairwise_insertOrd (cmp : α → α → Int)
    (total : ∀ a b, ¬ cmp a b < 0 ∨ ¬ cmp b a < 0)
    (htrans : ∀ a b c, ¬ cmp b a < 0 → ¬ cmp c b < 0 → ¬ cmp c a < 0)
    (x : α) :
    ∀ l : List α, List.Pairwise (fun a b => ¬ cmp b a < 0) l →
      List.Pairwise (fun a b => ¬ cmp b a < 0) (insertOrd cmp x l)
  | [], _ => List.pairwise_singleton _ x
  | y :: ys, h => by
      rcases List.pairwise_cons.1 h with ⟨hy, hys⟩
      rw [insertOrd]
      split
      · refine List.pairwise_cons.2 ⟨?_, pairwise_insertOrd cmp total htrans x ys hys⟩
        intro z hz
        rcases (mem_insertOrd cmp x ys z).1 hz with hzx | hzys
        · subst hzx
          rcases total y z with hyz | hzy
          · exact absurd (by assumption) hyz
          · exact hzy
        · exact hy z hzys
      · refine List.pairwise_cons.2 ⟨?_, h⟩
        intro z hz
        rcases List.mem_cons.1 hz with hzy | hzys
        · subst hzy; assumption
        · exact htrans x y z (by assumption) (hy z hzys)

theorem pairwise_jsSort (cmp : α → α → Int)
    (total : ∀ a b, ¬ cmp a b < 0 ∨ ¬ cmp b a < 0)
    (htrans : ∀ a b c, ¬ cmp b a < 0 → ¬ cmp c b < 0 → ¬ cmp c a < 0) :
    ∀ l : List α, List.Pairwise (fun a b => ¬ cmp b a < 0) (jsSort cmp l)
  | [] => List.Pairwise.nil
  | x :: xs =>
      pairwise_insertOrd cmp total htrans x (jsSort cmp xs)
        (pairwise_jsSort cmp total htrans xs)

/-! ### The lexicographic comparison agrees with the library order on strings -/

theorem lexCmp_eq_lt_iff : ∀ as bs : List Char, lexCmp as bs = .lt ↔ List.Lex (· < ·) as bs := by
  intro as
  induction as with
  | nil =>
      intro bs
      cases bs with
      | nil =>
          simp only [lexCmp]
          constructor
          · intro h; cases h
          · intro h; cases h
      | cons b bs =>
          simp only [lexCmp]
          constructor
          · intro _; exact List.Lex.nil
          · intro _; trivial
  | cons a as ih =>
      intro bs
      cases bs with
      | nil =>
          simp only [lexCmp]
          constructor
          · intro h; cases h
          · intro h; cases h
      | cons b bs =>
          rw [lexCmp]
          by_cases hab : a < b
          · simp only [if_pos hab]
            constructor
            · intro _; exact List.Lex.rel hab
            · intro _; trivial
          · by_cases hba : b < a
            · simp only [if_neg hab, if_pos hba]
              constructor
              · intro h; cases h
              · intro h
                cases h with
                | cons _ => exact absurd hba (lt_irrefl a)
                | rel h => exact absurd h hab
            · have hEq : a = b := le_antisymm (not_lt.1 hba) (not_lt.1 hab)
              subst hEq
              simp only [if_neg hab, if_neg hba]
              rw [ih bs]
              constructor
              · intro h; exact List.Lex.cons h
              · intro h
                cases h with
                | cons h => exact h
                | rel h => exact absurd h hab

theorem strCmp_eq_lt_iff (a b : String) : strCmp a b = .lt ↔ a < b := by
  rw [String.lt_iff_toList_lt]
  exact lexCmp_eq_lt_iff a.toList b.toList

theorem localeCompare_neg_iff (a b : String) : localeCompare a b < 0 ↔ a < b := by
  rw [← strCmp_eq_lt_iff]
  unfold localeCompare
  rcases h : strCmp a b with _ | _ | _ <;> decide

theorem countCmp_neg_iff (a b : String × Nat) : countCmp a b < 0 ↔ b.2 < a.2 := by
  rw [countCmp]; omega

theorem bandCmp_neg_iff (a b : String × Nat) :
    sortedBandsCmp SortMode.band a b < 0 ↔ a.1 < b.1 :=
  localeCompare_neg_iff a.1 b.1

theorem pairwise_jsSort_count (l : List (String × Nat)) :
    List.Pairwise (fun a b : String × Nat => b.2 ≤ a.2) (jsSort countCmp l) := by
  have h := pairwise_jsSort countCmp ?_ ?_ l
  · exact h.imp (fun hr => by
      rw [countCmp_neg_iff] at hr
      omega)
  · intro a b
    rw [countCmp_neg_iff, countCmp_neg_iff]
    omega
  · intro a b c
    rw [countCmp_neg_iff, countCmp_neg_iff, countCmp_neg_iff]
    omega

/-! ### Claim theorems: percentages and the stats view on degenerate input -/

/-- C1: refuted as stated; evaluation of the code at the failing inputs.
With zero countable episodes `knownBandsPercentage` is the JS division
`0/0 = NaN` (modelled `none`), not the defined `0` the claim requires, and
with zero known bands `newBandPercentage` is likewise `NaN`. -/
theorem knownBandsPercentage_zero_denominator_nan :
    knownBandsPercentage [] = none ∧ newBandPercentage [] = none ∧
    knownBandsPercentage [⟨"1", "t", "d", "<tbd>"⟩] = none ∧
    newBandPercentage [⟨"1", "t", "d", "<tbd>"⟩] = none := by decide

/-- C2: refuted as stated; evaluation of the stats derivation at the empty
episode list. The superlatives are indeed `undefined` (`none`), but
`knownPercentage` is `NaN` rather than `0`, and rendering `StatsPage`
indexes into the `undefined` superlatives (`stats.mostMentionedBand[0]`),
which throws — modelled by `renderStats [] = none`. -/
theorem statsPage_empty_throws :
    mostMentionedBand [] = none ∧ leastMentionedBand [] = none ∧
    renderStats [] = none ∧ knownBandsPercentage [] = none := by decide

/-! ### Claim theorems: the sorted band list -/

/-- C4 counterexample: with the single episode of band `"A"` and search term
`"b"`, the filtered view is empty, yet band-sort mode still displays
`("A", 1)` — a band with no episode matching the current search term. -/
theorem sortedBands_ignores_search_counterexample :
    filteredEpisodes [⟨"1", "t", "d", "A"⟩] "b" = [] ∧
    sortedBands [⟨"1", "t", "d", "A"⟩] SortMode.band = [("A", 1)] ∧
    ¬ (∀ p ∈ sortedBands [⟨"1", "t", "d", "A"⟩] SortMode.band,
        ∃ e ∈ filteredEpisodes [⟨"1", "t", "d", "A"⟩] "b", e.band = p.1) := by decide

/-- C4 amended: in band-sort and count-sort modes the displayed list is a
reordering of the band-count entries of the full (unfiltered) episode list;
it is computed independently of the search term. -/
theorem sortedBands_perm_bandCounts (episodes : List Episode) (mode : SortMode) :
    List.Perm (sortedBands episodes mode) (bandCounts episodes) :=
  jsSort_perm _ _

/-- C6: in band-sort mode the displayed list is lexicographically
non-decreasing in band name, and in count-sort mode it is non-increasing
in mention count. -/
theorem sortedBands_sorted (episodes : List Episode) :
    List.Pairwise (fun a b : String × Nat => a.1 ≤ b.1)
      (sortedBands episodes SortMode.band) ∧
    List.Pairwise (fun a b : String × Nat => b.2 ≤ a.2)
      (sortedBands episodes SortMode.count) := by
  constructor
  · have h := pairwise_jsSort (sortedBandsCmp SortMode.band) ?_ ?_ (bandCounts episodes)
    · exact h.imp (fun hr => by
        rw [bandCmp_neg_iff] at hr
        exact not_lt.1 hr)
    · intro a b
      by_cases hab : sortedBandsCmp SortMode.band a b < 0
      · right
        rw [bandCmp_neg_iff] at hab ⊢
        exact lt_asymm hab
      · exact Or.inl hab
    · intro a b c hba hcb
      rw [bandCmp_neg_iff] at hba hcb ⊢
      exact fun hca =>
        lt_irrefl _ (lt_of_le_of_lt (not_lt.1 hcb) (lt_of_lt_of_le hca (not_lt.1 hba)))
  · exact pairwise_jsSort_count (bandCounts episodes)

/-! ### Invariants of the band-count fold -/

theorem mentionCond_eq (s : String) : mentionCond s = !countSkipCond s := by
  cases h1 : (s == "") <;> cases h2 : jsIncludes s "<" <;> cases h3 : jsIncludes s ">" <;>
    simp [mentionCond, countSkipCond, h1, h2, h3]

theorem mentionCond_true_iff (s : String) : mentionCond s = true ↔ countSkipCond s = false := by
  rw [mentionCond_eq]
  cases countSkipCond s <;> simp

theorem recIncr_pos : ∀ (m : List (String × Nat)) (k : String),
    (∀ p ∈ m, 0 < p.2) → ∀ p ∈ recIncr m k, 0 < p.2
  | [], k, _, p, hp => by
      rw [recIncr, List.mem_singleton] at hp
      subst hp
      exact Nat.one_pos
  | (k', c) :: rest, k, h, p, hp => by
      rw [recIncr] at hp
      split at hp
      · rcases List.mem_cons.1 hp with hp | hp
        · subst hp
          exact Nat.succ_pos c
        · exact h p (List.mem_cons_of_mem _ hp)
      · rcases List.mem_cons.1 hp with hp | hp
        · subst hp
          exact h (k', c) (List.mem_cons_self _ _)
        · exact recIncr_pos rest k (fun q hq => h q (List.mem_cons_of_mem _ hq)) p hp

theorem recIncr_keys_eq : ∀ (m : List (String × Nat)) (k : String),
    (recIncr m k).map Prod.fst =
      if k ∈ m.map Prod.fst then m.map Prod.fst else m.map Prod.fst ++ [k]
  | [], k => by simp [recIncr]
  | (k', c) :: rest, k => by
      rw [recIncr]
      by_cases hk : k' = k
      · subst hk
        simp
      · rw [if_neg hk]
        have ih := recIncr_keys_eq rest k
        by_cases hmem : k ∈ rest.map Prod.fst
        · rw [if_pos hmem] at ih
          simp only [List.map_cons, List.mem_cons]
          rw [if_pos (Or.inr hmem), ih]
        · rw [if_neg hmem] at ih
          simp only [List.map_cons, List.mem_cons]
          rw [if_neg (by
            intro hor
            rcases hor with hor | hor
            · exact hk hor.symm
            · exact hmem hor), ih]
          simp

theorem recIncr_keys_mem (m : List (String × Nat)) (k b : String) :
    b ∈ (recIncr m k).map Prod.fst ↔ b ∈ m.map Prod.fst ∨ b = k := by
  rw [recIncr_keys_eq]
  by_cases hmem : k ∈ m.map Prod.fst
  · rw [if_pos hmem]
    constructor
    · exact Or.inl
    · rintro (h | h)
      · exact h
      · subst h; exact hmem
  · rw [if_neg hmem]
    simp [List.mem_append]

theorem recIncr_sum : ∀ (m : List (String × Nat)) (k : String),
    ((recIncr m k).map Prod.snd).sum = ((m.map Prod.snd).sum) + 1
  | [], k => by simp [recIncr]
  | (k', c) :: rest, k => by
      rw [recIncr]
      split
      · simp only [List.map_cons, List.sum_cons]
        omega
      · simp only [List.map_cons, List.sum_cons, recIncr_sum rest k]
        omega

theorem countsFold_cons (m : List (String × Nat)) (e : Episode) (l : List Episode) :
    countsFold m (e :: l) =
      countsFold (if countSkipCond e.band then m else recIncr m e.band) l := rfl

theorem countsFold_pos : ∀ (l : List Episode) (m : List (String × Nat)),
    (∀ p ∈ m, 0 < p.2) → ∀ p ∈ countsFold m l, 0 < p.2
  | [], _, h => h
  | e :: l, m, h => by
      rw [countsFold_cons]
      split
      · exact countsFold_pos l m h
      · exact countsFold_pos l _ (recIncr_pos m e.band h)

theorem countsFold_keys_mem : ∀ (l : List Episode) (m : List (String × Nat)) (b : String),
    b ∈ (countsFold m l).map Prod.fst ↔
      b ∈ m.map Prod.fst ∨ ∃ e ∈ l, countSkipCond e.band = false ∧ e.band = b
  | [], m, b => by simp [countsFold]
  | e :: l, m, b => by
      rw [countsFold_cons]
      by_cases hc : countSkipCond e.band
      · rw [if_pos hc, countsFold_keys_mem l m b]
        constructor
        · rintro (h | ⟨e', he', hP⟩)
          · exact Or.inl h
          · exact Or.inr ⟨e', List.mem_cons_of_mem _ he', hP⟩
        · rintro (h | ⟨e', he', hP⟩)
          · exact Or.inl h
          · rcases List.mem_cons.1 he' with he' | he'
            · subst he'
              rw [hP.1] at hc
              cases hc
            · exact Or.inr ⟨e', he', hP⟩
      · rw [if_neg hc, countsFold_keys_mem l _ b]
        rw [Bool.not_eq_true] at hc
        constructor
        · rintro (h | ⟨e', he', hP⟩)
          · rcases (recIncr_keys_mem m e.band b).1 h with h | h
            · exact Or.inl h
            · exact Or.inr ⟨e, List.mem_cons_self _ _, hc, h.symm⟩
          · exact Or.inr ⟨e', List.mem_cons_of_mem _ he', hP⟩
        · rintro (h | ⟨e', he', hP⟩)
          · exact Or.inl ((recIncr_keys_mem m e.band b).2 (Or.inl h))
          · rcases List.mem_cons.1 he' with he' | he'
            · subst he'
              exact Or.inl ((recIncr_keys_mem m e'.band b).2 (Or.inr hP.2.symm))
            · exact Or.inr ⟨e', he', hP⟩

theorem countsFold_sum : ∀ (l : List Episode) (m : List (String × Nat)),
    ((countsFold m l).map Prod.snd).sum =
      ((m.map Prod.snd).sum) + (l.filter (fun e => !countSkipCond e.band)).length
  | [], m => by simp [countsFold]
  | e :: l, m => by
      rw [countsFold_cons]
      by_cases hc : countSkipCond e.band
      · rw [if_pos hc, countsFold_sum l m, List.filter_cons]
        simp [hc]
      · rw [if_neg hc, countsFold_sum l _, recIncr_sum, List.filter_cons]
        rw [Bool.not_eq_true] at hc
        simp only [hc, Bool.not_false, if_pos, List.length_cons]
        omega

theorem countsFold_keys_nodup : ∀ (l : List Episode) (m : List (String × Nat)),
    (m.map Prod.fst).Nodup → ((countsFold m l).map Prod.fst).Nodup
  | [], _, h => h
  | e :: l, m, h => by
      rw [countsFold_cons]
      split
      · exact countsFold_keys_nodup l m h
      · refine countsFold_keys_nodup l _ ?_
        rw [recIncr_keys_eq]
        split
        · exact h
        · rw [List.nodup_append]
          refine ⟨h, List.nodup_singleton _, ?_⟩
          intro a ha hak
          rw [List.mem_singleton] at hak
          subst hak
          exact absurd ha (by assumption)

/-- C10: every entry of the band-count mapping is strictly positive, its keys
are exactly the known bands occurring in the episode list, and its counts sum
to the number of known-band episodes. -/
theorem bandCounts_invariants (episodes : List Episode) :
    (∀ p ∈ bandCounts episodes, 0 < p.2) ∧
    (∀ b : String, b ∈ (bandCounts episodes).map Prod.fst ↔
      ∃ e ∈ episodes, mentionCond e.band = true ∧ e.band = b) ∧
    ((bandCounts episodes).map Prod.snd).sum =
      (episodes.filter (fun e => mentionCond e.band)).length := by
  refine ⟨countsFold_pos episodes [] (by simp) , ?_, ?_⟩
  · intro b
    rw [show bandCounts episodes = countsFold [] episodes from rfl,
      countsFold_keys_mem episodes [] b]
    simp only [List.map_nil, List.not_mem_nil, false_or]
    constructor
    · rintro ⟨e, he, hc, hb⟩
      exact ⟨e, he, (mentionCond_true_iff e.band).2 hc, hb⟩
    · rintro ⟨e, he, hc, hb⟩
      exact ⟨e, he, (mentionCond_true_iff e.band).1 hc, hb⟩
  · rw [show bandCounts episodes = countsFold [] episodes from rfl,
      countsFold_sum episodes []]
    simp only [List.map_nil, List.sum_nil, Nat.zero_add]
    congr 1
    apply List.filter_congr
    intro e _
    rw [mentionCond_eq]

/-- C10 witness: the invariants evaluated on a concrete three-episode list. -/
theorem bandCounts_invariants_witness :
    (∀ p ∈ bandCounts [⟨"1", "t", "d", "A"⟩, ⟨"2", "t", "d", ""⟩, ⟨"3", "t", "d", "A"⟩],
      0 < p.2) ∧
    (∀ b : String,
      b ∈ (bandCounts [⟨"1", "t", "d", "A"⟩, ⟨"2", "t", "d", ""⟩,
        ⟨"3", "t", "d", "A"⟩]).map Prod.fst ↔
      ∃ e ∈ [⟨"1", "t", "d", "A"⟩, ⟨"2", "t", "d", ""⟩, ⟨"3", "t", "d", "A"⟩],
        mentionCond (Episode.band e) = true ∧ Episode.band e = b) ∧
    ((bandCounts [⟨"1", "t", "d", "A"⟩, ⟨"2", "t", "d", ""⟩,
        ⟨"3", "t", "d", "A"⟩]).map Prod.snd).sum =
      (([⟨"1", "t", "d", "A"⟩, ⟨"2", "t", "d", ""⟩, ⟨"3", "t", "d", "A"⟩] :
        List Episode).filter (fun e => mentionCond e.band)).length :=
  bandCounts_invariants [⟨"1", "t", "d", "A"⟩, ⟨"2", "t", "d", ""⟩, ⟨"3", "t", "d", "A"⟩]

theorem bandCounts_length_eq (episodes : List Episode) :
    (bandCounts episodes).length = distinctKnownBands episodes := by
  have hkeys : ((bandCounts episodes).map Prod.fst).Nodup :=
    countsFold_keys_nodup episodes [] (by simp)
  have hperm : List.Perm ((bandCounts episodes).map Prod.fst)
      (knownBandsList episodes).dedup := by
    rw [List.perm_ext_iff_of_nodup hkeys (List.nodup_dedup _)]
    intro b
    rw [List.mem_dedup,
      show bandCounts episodes = countsFold [] episodes from rfl,
      countsFold_keys_mem episodes [] b]
    simp only [List.map_nil, List.not_mem_nil, false_or]
    rw [knownBandsList]
    constructor
    · rintro ⟨e, he, hc, hb⟩
      exact List.mem_map.2 ⟨e, List.mem_filter.2 ⟨he, (mentionCond_true_iff _).2 hc⟩, hb⟩
    · intro hb
      rcases List.mem_map.1 hb with ⟨e, hef, hb⟩
      rcases List.mem_filter.1 hef with ⟨he, hm⟩
      exact ⟨e, he, (mentionCond_true_iff _).1 hm, hb⟩
  calc (bandCounts episodes).length
      = ((bandCounts episodes).map Prod.fst).length := (List.length_map _ _).symm
    _ = (knownBandsList episodes).dedup.length := hperm.length_eq
    _ = distinctKnownBands episodes := rfl

/-- C3 counterexample: on the list with one episode of band `"A"` and one
episode with the empty band, the code divides by all sentinel-free episodes
(the empty band included), giving 50%, whereas the claim's formula (empty
bands excluded from the denominator) gives 100%. -/
theorem knownBandsPercentage_counts_empty_band :
    knownBandsPercentage [⟨"1", "t", "d", "A"⟩, ⟨"2", "t", "d", ""⟩] = some 50 ∧
    specKnownPercentage [⟨"1", "t", "d", "A"⟩, ⟨"2", "t", "d", ""⟩] = some 100 ∧
    knownBandsPercentage [⟨"1", "t", "d", "A"⟩, ⟨"2", "t", "d", ""⟩] ≠
      specKnownPercentage [⟨"1", "t", "d", "A"⟩, ⟨"2", "t", "d", ""⟩] := by
  have h1 : bandCounts [⟨"1", "t", "d", "A"⟩, ⟨"2", "t", "d", ""⟩] = [("A", 1)] := by decide
  have h2 : totalCountableEpisodes [⟨"1", "t", "d", "A"⟩, ⟨"2", "t", "d", ""⟩] = 2 := by
    decide
  have h3 : ([⟨"1", "t", "d", "A"⟩, ⟨"2", "t", "d", ""⟩] :
      List Episode).filter (fun e => mentionCond e.band) = [⟨"1", "t", "d", "A"⟩] := by decide
  have h4 : distinctKnownBands [⟨"1", "t", "d", "A"⟩, ⟨"2", "t", "d", ""⟩] = 1 := by decide
  have hL : knownBandsPercentage [⟨"1", "t", "d", "A"⟩, ⟨"2", "t", "d", ""⟩] = some 50 := by
    rw [knownBandsPercentage, h1, h2]
    norm_num
  have hR : specKnownPercentage [⟨"1", "t", "d", "A"⟩, ⟨"2", "t", "d", ""⟩] = some 100 := by
    rw [specKnownPercentage, h3, h4]
    norm_num
  refine ⟨hL, hR, ?_⟩
  rw [hL, hR]
  intro h
  rw [Option.some_inj] at h
  norm_num at h

/-- C3 amended: whenever there is at least one countable episode (band free
of the sentinel characters, the empty band included), the known-bands
percentage equals the number of distinct known bands divided by the number
of countable episodes, times 100. -/
theorem knownBandsPercentage_formula (episodes : List Episode)
    (h : totalCountableEpisodes episodes ≠ 0) :
    knownBandsPercentage episodes =
      some ((distinctKnownBands episodes : ℚ) /
        (totalCountableEpisodes episodes : ℚ) * 100) := by
  rw [knownBandsPercentage, if_neg h, bandCounts_length_eq]

/-- C3 amended, witness: the formula evaluated on a one-episode list. -/
theorem knownBandsPercentage_formula_witness :
    totalCountableEpisodes [⟨"1", "t", "d", "A"⟩] ≠ 0 ∧
    knownBandsPercentage [⟨"1", "t", "d", "A"⟩] =
      some ((distinctKnownBands [⟨"1", "t", "d", "A"⟩] : ℚ) /
        (totalCountableEpisodes [⟨"1", "t", "d", "A"⟩] : ℚ) * 100) :=
  ⟨by decide, knownBandsPercentage_formula [⟨"1", "t", "d", "A"⟩] (by decide)⟩

/-! ### Invariants of the grouping fold -/

theorem groupAdd_join : ∀ (m : List (String × List Episode)) (k : String) (e : Episode),
    List.Perm (groupsJoin (groupAdd m k e)) (groupsJoin m ++ [e])
  | [], k, e => by simp [groupAdd, groupsJoin]
  | (k', es) :: rest, k, e => by
      rw [groupAdd]
      split
      · show List.Perm (groupsJoin ((k', es ++ [e]) :: rest)) _
        simp only [groupsJoin, List.map_cons, List.flatten_cons, List.append_assoc]
        exact List.Perm.append_left es (List.perm_append_comm.trans (List.Perm.refl _))
      · show List.Perm (groupsJoin ((k', es) :: groupAdd rest k e)) _
        simp only [groupsJoin, List.map_cons, List.flatten_cons, List.append_assoc]
        exact List.Perm.append_left es (groupAdd_join rest k e)

theorem groupsFold_cons (m : List (String × List Episode)) (e : Episode) (l : List Episode) :
    groupsFold m (e :: l) =
      groupsFold (if countSkipCond e.band then groupAdd m "Unknown" e else groupAdd m e.band e)
        l := rfl

theorem groupsFold_join : ∀ (l : List Episode) (m : List (String × List Episode)),
    List.Perm (groupsJoin (groupsFold m l)) (groupsJoin m ++ l)
  | [], m => by simp [groupsFold]
  | e :: l, m => by
      rw [groupsFold_cons]
      split
      · refine (groupsFold_join l _).trans ?_
        refine ((groupAdd_join m "Unknown" e).append_right l).trans ?_
        simp
      · refine (groupsFold_join l _).trans ?_
        refine ((groupAdd_join m e.band e).append_right l).trans ?_
        simp

theorem groupAdd_mem : ∀ (m : List (String × List Episode)) (k : String) (e : Episode),
    ∀ p ∈ groupAdd m k e, ∀ x ∈ p.2,
      (p.1 = k ∧ x = e) ∨ ∃ es₀, (p.1, es₀) ∈ m ∧ x ∈ es₀
  | [], k, e, p, hp, x, hx => by
      rw [groupAdd, List.mem_singleton] at hp
      subst hp
      rw [List.mem_singleton] at hx
      exact Or.inl ⟨rfl, hx⟩
  | (k', es) :: rest, k, e, p, hp, x, hx => by
      rw [groupAdd] at hp
      split at hp
      · rcases List.mem_cons.1 hp with hp | hp
        · subst hp
          rcases List.mem_append.1 hx with hx | hx
          · exact Or.inr ⟨es, List.mem_cons_self _ _, hx⟩
          · rw [List.mem_singleton] at hx
            exact Or.inl ⟨by assumption, hx⟩
        · exact Or.inr ⟨p.2, List.mem_cons_of_mem _ (by simpa using hp), hx⟩
      · rcases List.mem_cons.1 hp with hp | hp
        · subst hp
          exact Or.inr ⟨es, List.mem_cons_self _ _, hx⟩
        · rcases groupAdd_mem rest k e p hp x hx with h | ⟨es₀, hes₀, hxes₀⟩
          · exact Or.inl h
          · exact Or.inr ⟨es₀, List.mem_cons_of_mem _ hes₀, hxes₀⟩

theorem groupAdd_ok (m : List (String × List Episode)) (k : String) (e : Episode)
    (hm : ∀ p ∈ m, ∀ x ∈ p.2, p.1 = bucketKey x) (hk : k = bucketKey e) :
    ∀ p ∈ groupAdd m k e, ∀ x ∈ p.2, p.1 = bucketKey x := by
  intro p hp x hx
  rcases groupAdd_mem m k e p hp x hx with ⟨hpk, hxe⟩ | ⟨es₀, hes₀, hxes₀⟩
  · rw [hpk, hxe, hk]
  · exact hm (p.1, es₀) hes₀ x hxes₀

theorem groupsFold_ok : ∀ (l : List Episode) (m : List (String × List Episode)),
    (∀ p ∈ m, ∀ x ∈ p.2, p.1 = bucketKey x) →
    ∀ p ∈ groupsFold m l, ∀ x ∈ p.2, p.1 = bucketKey x
  | [], _, h => h
  | e :: l, m, h => by
      rw [groupsFold_cons]
      by_cases hc : countSkipCond e.band
      · rw [if_pos hc]
        exact groupsFold_ok l _ (groupAdd_ok m _ e h (by rw [bucketKey, if_pos hc]))
      · rw [if_neg hc]
        exact groupsFold_ok l _ (groupAdd_ok m _ e h (by rw [bucketKey, if_neg hc]))

theorem groupAdd_keys_eq : ∀ (m : List (String × List Episode)) (k : String) (e : Episode),
    (groupAdd m k e).map Prod.fst =
      if k ∈ m.map Prod.fst then m.map Prod.fst else m.map Prod.fst ++ [k]
  | [], k, e => by simp [groupAdd]
  | (k', es) :: rest, k, e => by
      rw [groupAdd]
      by_cases hk : k' = k
      · subst hk
        simp
      · rw [if_neg hk]
        have ih := groupAdd_keys_eq rest k e
        by_cases hmem : k ∈ rest.map Prod.fst
        · rw [if_pos hmem] at ih
          simp only [List.map_cons, List.mem_cons]
          rw [if_pos (Or.inr hmem), ih]
        · rw [if_neg hmem] at ih
          simp only [List.map_cons, List.mem_cons]
          rw [if_neg (by
            intro hor
            rcases hor with hor | hor
            · exact hk hor.symm
            · exact hmem hor), ih]
          simp

theorem groupsFold_keys_nodup : ∀ (l : List Episode) (m : List (String × List Episode)),
    (m.map Prod.fst).Nodup → ((groupsFold m l).map Prod.fst).Nodup
  | [], _, h => h
  | e :: l, m, h => by
      rw [groupsFold_cons]
      have hstep : ∀ k : String,
          ((groupAdd m k e).map Prod.fst).Nodup := by
        intro k
        rw [groupAdd_keys_eq]
        split
        · exact h
        · rw [List.nodup_append]
          refine ⟨h, List.nodup_singleton _, ?_⟩
          intro a ha hak
          rw [List.mem_singleton] at hak
          subst hak
          exact absurd ha (by assumption)
      split
      · exact groupsFold_keys_nodup l _ (hstep "Unknown")
      · exact groupsFold_keys_nodup l _ (hstep e.band)

/-- C7: the buckets of `bandGroups` partition the filtered episode list
exactly — their concatenation is a permutation of it (no episode omitted or
duplicated), every episode sits in the bucket named by its band (or in
`"Unknown"` when the band is missing or sentinel-marked), and bucket names
are pairwise distinct, so the `"Unknown"` bucket is unique. -/
theorem bandGroups_partition (episodes : List Episode) (term : String) :
    List.Perm (groupsJoin (bandGroups episodes term)) (filteredEpisodes episodes term) ∧
    (∀ p ∈ bandGroups episodes term, ∀ e ∈ p.2, p.1 = bucketKey e) ∧
    ((bandGroups episodes term).map Prod.fst).Nodup := by
  refine ⟨?_, groupsFold_ok _ [] (by simp), groupsFold_keys_nodup _ [] (by simp)⟩
  have h := groupsFold_join (filteredEpisodes episodes term) []
  simpa [groupsJoin] using h

/-- C7 witness: the partition properties evaluated on a concrete list with a
known, an empty and a sentinel band. -/
theorem bandGroups_partition_witness :
    List.Perm
      (groupsJoin (bandGroups [⟨"1", "t", "d", "A"⟩, ⟨"2", "t", "d", ""⟩,
        ⟨"3", "t", "d", "<x>"⟩] ""))
      (filteredEpisodes [⟨"1", "t", "d", "A"⟩, ⟨"2", "t", "d", ""⟩,
        ⟨"3", "t", "d", "<x>"⟩] "") ∧
    (∀ p ∈ bandGroups [⟨"1", "t", "d", "A"⟩, ⟨"2", "t", "d", ""⟩,
        ⟨"3", "t", "d", "<x>"⟩] "", ∀ e ∈ p.2, p.1 = bucketKey e) ∧
    ((bandGroups [⟨"1", "t", "d", "A"⟩, ⟨"2", "t", "d", ""⟩,
        ⟨"3", "t", "d", "<x>"⟩] "").map Prod.fst).Nodup :=
  bandGroups_partition [⟨"1", "t", "d", "A"⟩, ⟨"2", "t", "d", ""⟩, ⟨"3", "t", "d", "<x>"⟩] ""

/-! ### The duplicate-id filter -/

theorem idx_map_snd : ∀ (n : Nat) (l : List α), (idx n l).map Prod.snd = l
  | _, [] => rfl
  | n, x :: xs => by rw [idx, List.map_cons, idx_map_snd (n + 1) xs]

theorem mem_idx_le : ∀ (l : List α) (n : Nat) (p : Nat × α), p ∈ idx n l → n ≤ p.1
  | [], _, p, hp => absurd hp (List.not_mem_nil p)
  | _ :: xs, n, p, hp => by
      rw [idx] at hp
      rcases List.mem_cons.1 hp with hp | hp
      · subst hp; exact Nat.le_refl n
      · exact Nat.le_of_succ_le (mem_idx_le xs (n + 1) p hp)

theorem mem_idx_get : ∀ (l : List α) (n : Nat) (p : Nat × α),
    p ∈ idx n l → l[p.1 - n]? = some p.2
  | [], _, p, hp => absurd hp (List.not_mem_nil p)
  | x :: xs, n, p, hp => by
      rw [idx] at hp
      rcases List.mem_cons.1 hp with hp | hp
      · subst hp
        simp
      · have hle := mem_idx_le xs (n + 1) p hp
        have ih := mem_idx_get xs (n + 1) p hp
        have hsub : p.1 - n = (p.1 - (n + 1)) + 1 := by omega
        rw [hsub]
        simpa using ih

theorem mem_idx_snd {l : List α} {n : Nat} {p : Nat × α} (hp : p ∈ idx n l) : p.2 ∈ l := by
  have h := List.mem_map_of_mem Prod.snd hp
  rwa [idx_map_snd] at h

theorem idx_pairwise : ∀ (l : List α) (n : Nat),
    List.Pairwise (fun p q : Nat × α => p.1 < q.1) (idx n l)
  | [], _ => List.Pairwise.nil
  | x :: xs, n => by
      rw [idx]
      refine List.pairwise_cons.2 ⟨?_, idx_pairwise xs (n + 1)⟩
      intro q hq
      exact Nat.lt_of_succ_le (mem_idx_le xs (n + 1) q hq)

theorem findIdx_of_pairwise : ∀ (l : List Episode),
    List.Pairwise (fun a b : Episode => a.id ≠ b.id) l →
    ∀ (i : Nat) (e : Episode), l[i]? = some e →
      l.findIdx (fun x => x.id == e.id) = i
  | [], _, i, e, h => by simp at h
  | x :: xs, hpw, i, e, h => by
      rcases List.pairwise_cons.1 hpw with ⟨hx, hxs⟩
      cases i with
      | zero =>
          rw [List.getElem?_cons_zero, Option.some_inj] at h
          subst h
          rw [List.findIdx_cons]
          simp
      | succ j =>
          rw [List.getElem?_cons_succ] at h
          have hmem : e ∈ xs := by
            have := List.getElem?_eq_some.1 h
            rcases this with ⟨hj, hg⟩
            exact hg ▸ List.getElem_mem hj
          have hne : (x.id == e.id) = false := by
            simpa using hx e hmem
          rw [List.findIdx_cons, hne, cond_false, findIdx_of_pairwise xs hxs j e h]

theorem find?_of_findIdx : ∀ (l : List α) (q : α → Bool) (i : Nat) (e : α),
    l.findIdx q = i → l[i]? = some e → l.find? q = some e
  | [], _, _, _, _, h => by simp at h
  | x :: xs, q, i, e, hidx, hget => by
      cases hq : q x with
      | true =>
          rw [List.findIdx_cons, hq, cond_true] at hidx
          subst hidx
          rw [List.getElem?_cons_zero, Option.some_inj] at hget
          subst hget
          exact List.find?_cons_of_pos xs hq
      | false =>
          rw [List.findIdx_cons, hq, cond_false] at hidx
          subst hidx
          rw [List.getElem?_cons_succ] at hget
          rw [List.find?_cons_of_neg xs (by simp [hq])]
          exact find?_of_findIdx xs q (xs.findIdx q) e rfl hget

theorem filteredEpisodes_pairwise (episodes : List Episode) (term : String) :
    List.Pairwise (fun a b : Episode => a.id ≠ b.id) (filteredEpisodes episodes term) := by
  rw [filteredEpisodes, List.pairwise_map]
  have hsub : List.Sublist
      (((idx 0 episodes).filter (fun p => bandMatches p.2 term)).filter
        (fun p => firstIdxOfId episodes p.2.id == p.1)) (idx 0 episodes) :=
    (List.filter_sublist _).trans (List.filter_sublist _)
  have hpw := (idx_pairwise episodes 0).sublist hsub
  refine hpw.imp_of_mem ?_
  intro p q hp hq hlt heq
  have hfp := List.of_mem_filter hp
  have hfq := List.of_mem_filter hq
  simp only [beq_iff_eq] at hfp hfq
  rw [heq] at hfp
  omega

theorem filteredEpisodes_sublist (episodes : List Episode) (term : String) :
    (filteredEpisodes episodes term).Sublist episodes := by
  rw [filteredEpisodes]
  have hsub : List.Sublist
      (((idx 0 episodes).filter (fun p => bandMatches p.2 term)).filter
        (fun p => firstIdxOfId episodes p.2.id == p.1)) (idx 0 episodes) :=
    (List.filter_sublist _).trans (List.filter_sublist _)
  have h := hsub.map Prod.snd
  rwa [idx_map_snd] at h

theorem filteredEpisodes_mem (episodes : List Episode) (term : String) (e : Episode)
    (he : e ∈ filteredEpisodes episodes term) :
    bandMatches e term = true ∧ episodes.find? (fun x => x.id == e.id) = some e := by
  rw [filteredEpisodes] at he
  rcases List.mem_map.1 he with ⟨p, hp, hpe⟩
  have hf₂ := List.of_mem_filter hp
  have hp₁ := List.mem_of_mem_filter hp
  have hf₁ := List.of_mem_filter hp₁
  have hpidx : p ∈ idx 0 episodes := List.mem_of_mem_filter hp₁
  have hget : episodes[p.1]? = some p.2 := by
    simpa using mem_idx_get episodes 0 p hpidx
  simp only [beq_iff_eq] at hf₂
  subst hpe
  refine ⟨hf₁, ?_⟩
  rw [firstIdxOfId] at hf₂
  exact find?_of_findIdx episodes _ p.1 p.2 hf₂ hget

theorem filteredEpisodes_of_all (l : List Episode) (term : String)
    (hmatch : ∀ e ∈ l, bandMatches e term = true)
    (hpw : List.Pairwise (fun a b : Episode => a.id ≠ b.id) l) :
    filteredEpisodes l term = l := by
  rw [filteredEpisodes]
  have h1 : (idx 0 l).filter (fun p => bandMatches p.2 term) = idx 0 l := by
    rw [List.filter_eq_self]
    intro p hp
    exact hmatch p.2 (mem_idx_snd hp)
  rw [h1]
  have h2 : (idx 0 l).filter (fun p => firstIdxOfId l p.2.id == p.1) = idx 0 l := by
    rw [List.filter_eq_self]
    intro p hp
    have hget : l[p.1]? = some p.2 := by
      simpa using mem_idx_get l 0 p hp
    rw [firstIdxOfId, findIdx_of_pairwise l hpw p.1 p.2 hget]
    simp
  rw [h2, idx_map_snd]

/-- C8: applying the band filter (with its duplicate-id pass) twice with the
same search term yields the same result as applying it once. -/
theorem filteredEpisodes_idem (episodes : List Episode) (term : String) :
    filteredEpisodes (filteredEpisodes episodes term) term =
      filteredEpisodes episodes term :=
  filteredEpisodes_of_all (filteredEpisodes episodes term) term
    (fun e he => (filteredEpisodes_mem episodes term e he).1)
    (filteredEpisodes_pairwise episodes term)

/-- C9: the filtered list has pairwise-distinct episode ids, preserves the
input order (it is a sublist of the input), and every episode it keeps is the
first occurrence of its id in the input list. -/
theorem filteredEpisodes_unique_ids (episodes : List Episode) (term : String) :
    List.Pairwise (fun a b : Episode => a.id ≠ b.id) (filteredEpisodes episodes term) ∧
    (filteredEpisodes episodes term).Sublist episodes ∧
    (∀ e ∈ filteredEpisodes episodes term,
      episodes.find? (fun x => x.id == e.id) = some e) :=
  ⟨filteredEpisodes_pairwise episodes term, filteredEpisodes_sublist episodes term,
    fun e he => (filteredEpisodes_mem episodes term e he).2⟩

/-- C9 witness: the uniqueness properties evaluated on a list with a
duplicated id. -/
theorem filteredEpisodes_unique_ids_witness :
    List.Pairwise (fun a b : Episode => a.id ≠ b.id)
      (filteredEpisodes [⟨"1", "t", "d", "A"⟩, ⟨"1", "u", "d", "B"⟩,
        ⟨"2", "v", "d", "C"⟩] "") ∧
    (filteredEpisodes [⟨"1", "t", "d", "A"⟩, ⟨"1", "u", "d", "B"⟩,
      ⟨"2", "v", "d", "C"⟩] "").Sublist
      [⟨"1", "t", "d", "A"⟩, ⟨"1", "u", "d", "B"⟩, ⟨"2", "v", "d", "C"⟩] ∧
    (∀ e ∈ filteredEpisodes [⟨"1", "t", "d", "A"⟩, ⟨"1", "u", "d", "B"⟩,
        ⟨"2", "v", "d", "C"⟩] "",
      ([⟨"1", "t", "d", "A"⟩, ⟨"1", "u", "d", "B"⟩, ⟨"2", "v", "d", "C"⟩] :
        List Episode).find? (fun x => x.id == e.id) = some e) :=
  filteredEpisodes_unique_ids [⟨"1", "t", "d", "A"⟩, ⟨"1", "u", "d", "B"⟩,
    ⟨"2", "v", "d", "C"⟩] ""

/-! ### The superlatives: head and last of the stable count-sort -/

theorem find?_ext : ∀ (l : List α) (p q : α → Bool),
    (∀ a ∈ l, p a = q a) → l.find? p = l.find? q
  | [], _, _, _ => rfl
  | x :: xs, p, q, h => by
      have hx := h x (List.mem_cons_self _ _)
      cases hpx : p x with
      | true =>
          rw [List.find?_cons_of_pos xs hpx, List.find?_cons_of_pos xs (by rw [← hx]; exact hpx)]
      | false =>
          rw [List.find?_cons_of_neg xs (by simp [hpx]),
            List.find?_cons_of_neg xs (by simp [← hx, hpx]),
            find?_ext xs p q (fun a ha => h a (List.mem_cons_of_mem _ ha))]

theorem head?_insertOrd (cmp : α → α → Int) (x : α) :
    ∀ l : List α, (insertOrd cmp x l).head? =
      match l.head? with
      | none => some x
      | some h => if cmp h x < 0 then some h else some x
  | [] => rfl
  | y :: ys => by
      rw [insertOrd]
      split
      · simp only [List.head?_cons]
        rw [if_pos (by assumption)]
      · simp only [List.head?_cons]
        rw [if_neg (by assumption)]

theorem insertOrd_ne_nil (cmp : α → α → Int) (x : α) :
    ∀ l : List α, insertOrd cmp x l ≠ []
  | [] => by simp [insertOrd]
  | y :: ys => by
      rw [insertOrd]
      split <;> simp

theorem getLast?_cons_of_ne_nil (a : α) (l : List α) (h : l ≠ []) :
    (a :: l).getLast? = l.getLast? := by
  cases l with
  | nil => exact absurd rfl h
  | cons b bs => exact List.getLast?_cons_cons

theorem getLast?_insertOrd (x : String × Nat) :
    ∀ l : List (String × Nat), (insertOrd countCmp x l).getLast? =
      if (l.all fun y => decide (countCmp y x < 0)) = true then some x else l.getLast?
  | [] => by simp [insertOrd]
  | y :: ys => by
      rw [insertOrd]
      split
      · have hc : countCmp y x < 0 := by assumption
        rw [getLast?_cons_of_ne_nil _ _ (insertOrd_ne_nil countCmp x ys),
          getLast?_insertOrd x ys, List.all_cons, decide_eq_true hc, Bool.true_and]
        by_cases hall : (ys.all fun y => decide (countCmp y x < 0)) = true
        · rw [if_pos hall, if_pos hall]
        · rw [if_neg hall, if_neg hall]
          have hys : ys ≠ [] := by
            intro hnil
            subst hnil
            exact hall rfl
          rw [getLast?_cons_of_ne_nil y ys hys]
      · have hc : ¬ countCmp y x < 0 := by assumption
        rw [List.getLast?_cons_cons, List.all_cons, decide_eq_false hc, Bool.false_and]
        rw [if_neg (by simp)]

theorem exists_min_entry : ∀ l : List (String × Nat), l ≠ [] →
    ∃ p ∈ l, ∀ q ∈ l, p.2 ≤ q.2 := by
  intro l
  induction l with
  | nil => intro h; exact absurd rfl h
  | cons x xs ih =>
      intro _
      by_cases hxs : xs = []
      · subst hxs
        refine ⟨x, List.mem_cons_self _ _, ?_⟩
        intro q hq
        rcases List.mem_cons.1 hq with hq | hq
        · subst hq; exact Nat.le_refl _
        · cases hq
      · rcases ih hxs with ⟨p, hp, hmin⟩
        by_cases hpx : p.2 ≤ x.2
        · refine ⟨p, List.mem_cons_of_mem _ hp, ?_⟩
          intro q hq
          rcases List.mem_cons.1 hq with hq | hq
          · subst hq; exact hpx
          · exact hmin q hq
        · refine ⟨x, List.mem_cons_self _ _, ?_⟩
          intro q hq
          rcases List.mem_cons.1 hq with hq | hq
          · subst hq; exact Nat.le_refl _
          · exact Nat.le_trans (by omega) (hmin q hq)

theorem head?_jsSort_count : ∀ l : List (String × Nat),
    (jsSort countCmp l).head? = firstMaxEntry l
  | [] => rfl
  | x :: xs => by
      have ih := head?_jsSort_count xs
      show (insertOrd countCmp x (jsSort countCmp xs)).head? = firstMaxEntry (x :: xs)
      rw [head?_insertOrd]
      cases hS : (jsSort countCmp xs).head? with
      | none =>
          rw [List.head?_eq_none_iff] at hS
          have hxs : xs = [] := by
            have hperm := jsSort_perm countCmp xs
            rw [hS] at hperm
            exact (hperm.symm).eq_nil
          subst hxs
          rw [firstMaxEntry, List.find?_cons_of_pos _ (by simp)]
      | some h =>
          have hmem : h ∈ xs := by
            rcases List.head?_eq_some_iff.1 hS with ⟨ys, hys⟩
            exact (jsSort_perm countCmp xs).subset (by rw [hys]; exact List.mem_cons_self _ _)
          have hmax : ∀ q ∈ xs, q.2 ≤ h.2 := by
            intro q hq
            rcases List.head?_eq_some_iff.1 hS with ⟨ys, hys⟩
            have hq' : q ∈ jsSort countCmp xs := (jsSort_perm countCmp xs).symm.subset hq
            rw [hys] at hq'
            rcases List.mem_cons.1 hq' with hqh | hqt
            · subst hqh; exact Nat.le_refl _
            · have hpw := pairwise_jsSort_count xs
              rw [hys] at hpw
              exact (List.pairwise_cons.1 hpw).1 q hqt
          rw [firstMaxEntry]
          dsimp only
          by_cases hcx : countCmp h x < 0
          · rw [if_pos hcx]
            rw [countCmp_neg_iff] at hcx
            rw [List.find?_cons_of_neg _ (by
              simp only [List.all_eq_true, decide_eq_true_eq]
              intro hallx
              have := hallx h (List.mem_cons_of_mem _ hmem)
              omega)]
            rw [ih] at hS
            rw [firstMaxEntry] at hS
            rw [← hS]
            apply find?_ext
            intro a ha
            rw [List.all_cons]
            by_cases hQ : (xs.all fun q => decide (q.2 ≤ a.2)) = true
            · have hha := List.all_eq_true.1 hQ h hmem
              rw [decide_eq_true_eq] at hha
              rw [hQ, decide_eq_true (by omega : x.2 ≤ a.2)]
              rfl
            · rw [eq_false_of_ne_true hQ, Bool.and_false]
          · rw [if_neg hcx]
            rw [countCmp_neg_iff] at hcx
            rw [List.find?_cons_of_pos _ (by
              simp only [List.all_eq_true, decide_eq_true_eq]
              intro q hq
              rcases List.mem_cons.1 hq with hq | hq
              · subst hq; exact Nat.le_refl _
              · have := hmax q hq
                omega)]

theorem getLast?_jsSort_count : ∀ l : List (String × Nat),
    (jsSort countCmp l).getLast? = lastMinEntry l
  | [] => rfl
  | x :: xs => by
      have ih := getLast?_jsSort_count xs
      show (insertOrd countCmp x (jsSort countCmp xs)).getLast? = lastMinEntry (x :: xs)
      rw [getLast?_insertOrd, lastMinEntry, List.reverse_cons, List.find?_append]
      by_cases hall : ((jsSort countCmp xs).all fun y => decide (countCmp y x < 0)) = true
      · rw [if_pos hall]
        have hstrict : ∀ y ∈ xs, x.2 < y.2 := by
          intro y hy
          have hy' : y ∈ jsSort countCmp xs := (jsSort_perm countCmp xs).symm.subset hy
          have hdec := List.all_eq_true.1 hall y hy'
          rw [decide_eq_true_eq, countCmp_neg_iff] at hdec
          exact hdec
        have hnone : xs.reverse.find? (fun p => (x :: xs).all fun q => decide (p.2 ≤ q.2)) =
            none := by
          rw [List.find?_eq_none]
          intro p hp hpred
          rw [List.mem_reverse] at hp
          have hx := List.all_eq_true.1 hpred x (List.mem_cons_self _ _)
          rw [decide_eq_true_eq] at hx
          have := hstrict p hp
          omega
        rw [hnone, Option.none_or]
        rw [List.find?_cons_of_pos _ (by
          simp only [List.all_eq_true, decide_eq_true_eq]
          intro q hq
          rcases List.mem_cons.1 hq with hq | hq
          · subst hq; exact Nat.le_refl _
          · exact Nat.le_of_lt (hstrict q hq))]
      · rw [if_neg hall]
        have hex : ∃ y₀ ∈ xs, y₀.2 ≤ x.2 := by
          by_contra hnex
          push_neg at hnex
          apply hall
          rw [List.all_eq_true]
          intro y hy
          have hy' : y ∈ xs := (jsSort_perm countCmp xs).subset hy
          rw [decide_eq_true_eq, countCmp_neg_iff]
          exact hnex y hy'
        rcases hex with ⟨y₀, hy₀, hy₀le⟩
        rw [ih, lastMinEntry]
        have hcongr : xs.reverse.find? (fun p => (x :: xs).all fun q => decide (p.2 ≤ q.2)) =
            xs.reverse.find? (fun p => xs.all fun q => decide (p.2 ≤ q.2)) := by
          apply find?_ext
          intro a ha
          rw [List.mem_reverse] at ha
          rw [List.all_cons]
          by_cases hQ : (xs.all fun q => decide (a.2 ≤ q.2)) = true
          · have ha' := List.all_eq_true.1 hQ y₀ hy₀
            rw [decide_eq_true_eq] at ha'
            rw [hQ, decide_eq_true (by omega : a.2 ≤ x.2)]
            rfl
          · rw [eq_false_of_ne_true hQ, Bool.and_false]
        rw [hcongr]
        have hsome : ∃ z, xs.reverse.find? (fun p => xs.all fun q => decide (p.2 ≤ q.2)) =
            some z := by
          rcases exists_min_entry xs (by
            intro hnil
            subst hnil
            cases hy₀) with ⟨m, hm, hmin⟩
          cases hfind : xs.reverse.find? (fun p => xs.all fun q => decide (p.2 ≤ q.2)) with
          | some z => exact ⟨z, rfl⟩
          | none =>
              rw [List.find?_eq_none] at hfind
              exfalso
              apply hfind m (List.mem_reverse.2 hm)
              rw [List.all_eq_true]
              intro q hq
              exact decide_eq_true (hmin q hq)
        rcases hsome with ⟨z, hz⟩
        rw [hz]
        rfl

/-- C5 counterexample: with two bands each mentioned once, the
least-mentioned superlative is the LAST-encountered band `"B"`, not the
first-encountered `"A"` the claim's tie-breaking rule demands. -/
theorem leastMentioned_tie_counterexample :
    leastMentionedBand [⟨"1", "t", "d", "A"⟩, ⟨"2", "t", "d", "B"⟩] = some ("B", 1) ∧
    firstMinEntry (bandMentions [⟨"1", "t", "d", "A"⟩, ⟨"2", "t", "d", "B"⟩]) =
      some ("A", 1) ∧
    leastMentionedBand [⟨"1", "t", "d", "A"⟩, ⟨"2", "t", "d", "B"⟩] ≠
      firstMinEntry (bandMentions [⟨"1", "t", "d", "A"⟩, ⟨"2", "t", "d", "B"⟩]) := by
  decide

/-- C5 amended: the most-mentioned band is the first-encountered band of
maximal mention count, while the least-mentioned band is the
LAST-encountered band of minimal mention count (the stable descending sort
puts the earliest-inserted entry first within each tie group, and the
least-mentioned superlative reads the final element). -/
theorem mostLeastMentioned_eq (episodes : List Episode) :
    mostMentionedBand episodes = firstMaxEntry (bandMentions episodes) ∧
    leastMentionedBand episodes = lastMinEntry (bandMentions episodes) :=
  ⟨head?_jsSort_count (bandMentions episodes),
    getLast?_jsSort_count (bandMentions episodes)⟩

end ThankYouDK
